/-
Verification of the task hierarchy engine of the doist command-line client.

The development embeds, as executable Lean definitions, the parts of the
repository the claims are about:
  * the Default task comparator (impl Ord for Task, src/api/rest/task.rs),
  * DueDate.exact_datetime and a model of chrono's RFC 3339 parser,
  * the duration sort key with its u32 day-to-minutes conversion
    (src/tasks/list.rs),
  * the recursive per-sibling sorting of the ungrouped listing
    (list_tasks_with_sort, src/tasks/list.rs),
  * grouping by project and its counts (collect_tasks, count_all_tasks,
    count_all_subtasks, src/tasks/list.rs),
  * the tree assembler (Tree::from_items), whose implementation file
    (src/api/tree.rs) is not part of the provided sources and is therefore
    modelled from the specification.
-/
import Mathlib

set_option maxHeartbeats 1000000

namespace Doist

/-! ## Three-way comparison infrastructure

Rust code compares via Ord::cmp returning Ordering; we mirror this with a
comparator into Lean's Ordering type derived from a linear order. -/

/-- Three-way comparison obtained from a linear order; this is the semantics
of Rust's Ord::cmp on primitive ordered types (integers, strings). -/
def cmpOf {α : Type} [LinearOrder α] (a b : α) : Ordering :=
  if a < b then .lt else if a = b then .eq else .gt

theorem cmpOf_eq_lt {α : Type} [LinearOrder α] {a b : α} :
    cmpOf a b = .lt ↔ a < b := by
  unfold cmpOf
  split
  · simp [*]
  · split <;> simp_all

theorem cmpOf_eq_eq {α : Type} [LinearOrder α] {a b : α} :
    cmpOf a b = .eq ↔ a = b := by
  unfold cmpOf
  split
  · constructor
    · intro h; cases h
    · intro h; subst h; simp_all
  · split <;> simp_all

theorem cmpOf_eq_gt {α : Type} [LinearOrder α] {a b : α} :
    cmpOf a b = .gt ↔ b < a := by
  unfold cmpOf
  split
  · constructor
    · intro h; cases h
    · intro h; exact absurd h (not_lt_of_lt (by assumption))
  · split
    · constructor
      · intro h; cases h
      · intro h; subst_vars; exact absurd h (lt_irrefl _)
    · simp only [true_iff]
      rcases lt_trichotomy a b with h | h | h
      · exact absurd h (by assumption)
      · exact absurd h (by assumption)
      · exact h

theorem cmpOf_self {α : Type} [LinearOrder α] (a : α) : cmpOf a a = .eq := by
  simp [cmpOf]

theorem cmpOf_swap {α : Type} [LinearOrder α] (a b : α) :
    (cmpOf a b).swap = cmpOf b a := by
  rcases lt_trichotomy a b with h | h | h
  · rw [cmpOf_eq_lt.mpr h, (by rfl : Ordering.lt.swap = Ordering.gt)]
    exact (cmpOf_eq_gt.mpr h).symm
  · subst h; rw [cmpOf_self]; rfl
  · rw [cmpOf_eq_gt.mpr h, (by rfl : Ordering.gt.swap = Ordering.lt)]
    exact (cmpOf_eq_lt.mpr h).symm

theorem Ordering.swap_then (x y : Ordering) :
    (x.then y).swap = x.swap.then y.swap := by
  cases x <;> rfl

theorem Ordering.then_eq_lt_iff (x y : Ordering) :
    x.then y = .lt ↔ x = .lt ∨ (x = .eq ∧ y = .lt) := by
  cases x <;> simp [Ordering.then]

theorem Ordering.then_eq_eq_iff (x y : Ordering) :
    x.then y = .eq ↔ x = .eq ∧ y = .eq := by
  cases x <;> simp [Ordering.then]

/-- Lawfulness of a three-way comparator: swapping arguments swaps the result,
strictly-less results compose transitively, and a tie makes the two sides
interchangeable on the left. -/
structure IsLawfulCmp {α : Type} (c : α → α → Ordering) : Prop where
  symm : ∀ a b, (c a b).swap = c b a
  lt_trans : ∀ a b d, c a b = .lt → c b d = .lt → c a d = .lt
  eq_left : ∀ a b d, c a b = .eq → c b d = c a d

theorem IsLawfulCmp.eq_right {α : Type} {c : α → α → Ordering}
    (hc : IsLawfulCmp c) (a b d : α) (h : c b d = .eq) : c a b = c a d := by
  have h1 : c d b = .eq := by
    have := hc.symm b d
    rw [h] at this
    exact this.symm
  have h2 : c b a = c d a := hc.eq_left d b a h1
  calc c a b = (c b a).swap := by rw [hc.symm b a]
    _ = (c d a).swap := by rw [h2]
    _ = c a d := hc.symm d a

theorem IsLawfulCmp.gt_iff {α : Type} {c : α → α → Ordering}
    (hc : IsLawfulCmp c) (a b : α) : c a b = .gt ↔ c b a = .lt := by
  constructor
  · intro h
    have := hc.symm a b
    rw [h] at this
    exact this.symm
  · intro h
    have := hc.symm b a
    rw [h] at this
    exact this.symm

/-- A comparator obtained by pulling a lawful comparator back along a key
function is lawful. -/
theorem IsLawfulCmp.comap {α β : Type} {c : β → β → Ordering}
    (hc : IsLawfulCmp c) (f : α → β) :
    IsLawfulCmp (fun a b => c (f a) (f b)) := by
  refine ⟨?_, ?_, ?_⟩
  · intro a b; exact hc.symm (f a) (f b)
  · intro a b d h1 h2; exact hc.lt_trans (f a) (f b) (f d) h1 h2
  · intro a b d h; exact hc.eq_left (f a) (f b) (f d) h

theorem isLawfulCmp_cmpOf {α : Type} [LinearOrder α] :
    IsLawfulCmp (fun a b : α => cmpOf a b) := by
  refine ⟨cmpOf_swap, ?_, ?_⟩
  · intro a b d h1 h2
    exact cmpOf_eq_lt.mpr (lt_trans (cmpOf_eq_lt.mp h1) (cmpOf_eq_lt.mp h2))
  · intro a b d h
    have h' : a = b := cmpOf_eq_eq.mp h
    rw [h']

/-- Argument-swapping preserves lawfulness (this is how the reversed priority
comparison is justified). -/
theorem IsLawfulCmp.swap_fn {α : Type} {c : α → α → Ordering}
    (hc : IsLawfulCmp c) : IsLawfulCmp (fun a b => (c a b).swap) := by
  refine ⟨?_, ?_, ?_⟩
  · intro a b
    rw [Ordering.swap_swap, ← hc.symm b a]
  · intro a b d h1 h2
    have g1 : c a b = .gt := by
      cases hx : c a b <;> rw [hx] at h1 <;> first | rfl | cases h1
    have g2 : c b d = .gt := by
      cases hx : c b d <;> rw [hx] at h2 <;> first | rfl | cases h2
    have l1 : c b a = .lt := (hc.gt_iff a b).mp g1
    have l2 : c d b = .lt := (hc.gt_iff b d).mp g2
    have : c d a = .lt := hc.lt_trans d b a l2 l1
    have : c a d = .gt := (hc.gt_iff a d).mpr this
    rw [this]; rfl
  · intro a b d h
    have he : c a b = .eq := by
      cases hx : c a b <;> rw [hx] at h <;> first | rfl | cases h
    rw [hc.eq_left a b d he]

/-- Lexicographic composition via Ordering.then preserves lawfulness. -/
theorem IsLawfulCmp.then_comp {α : Type} {c₁ c₂ : α → α → Ordering}
    (h₁ : IsLawfulCmp c₁) (h₂ : IsLawfulCmp c₂) :
    IsLawfulCmp (fun a b => (c₁ a b).then (c₂ a b)) := by
  refine ⟨?_, ?_, ?_⟩
  · intro a b
    rw [Ordering.swap_then, h₁.symm, h₂.symm]
  · intro a b d hab hbd
    rw [Ordering.then_eq_lt_iff] at hab hbd ⊢
    rcases hab with hab | ⟨hab, hab'⟩
    · rcases hbd with hbd | ⟨hbd, hbd'⟩
      · exact Or.inl (h₁.lt_trans a b d hab hbd)
      · exact Or.inl (by rw [← h₁.eq_right a b d hbd]; exact hab)
    · rcases hbd with hbd | ⟨hbd, hbd'⟩
      · exact Or.inl (by rw [h₁.eq_left a b d hab] at hbd; exact hbd)
      · refine Or.inr ⟨?_, h₂.lt_trans a b d hab' hbd'⟩
        rw [← h₁.eq_left a b d hab]; exact hbd
  · intro a b d h
    rw [Ordering.then_eq_eq_iff] at h
    rw [h₁.eq_left a b d h.1, h₂.eq_left a b d h.2]

/-! ### String comparison

Rust compares String ids lexicographically; we embed this as an explicit
character-list comparator (kernel-computable) and relate it to the
lexicographic order on String. -/

/-- Lexicographic three-way comparison of character lists. -/
def cmpCharList : List Char → List Char → Ordering
  | [], [] => .eq
  | [], _ :: _ => .lt
  | _ :: _, [] => .gt
  | c :: cs, d :: ds => (cmpOf c d).then (cmpCharList cs ds)

/-- Lexicographic three-way comparison of strings, the semantics of Rust's
Ord for String. -/
def cmpString (a b : String) : Ordering := cmpCharList a.data b.data

theorem cmpCharList_eq_eq :
    ∀ (a b : List Char), cmpCharList a b = .eq ↔ a = b := by
  intro a
  induction a with
  | nil =>
    intro b
    cases b with
    | nil => simp [cmpCharList]
    | cons d ds => simp [cmpCharList]
  | cons c cs ih =>
    intro b
    cases b with
    | nil => simp [cmpCharList]
    | cons d ds =>
      simp only [cmpCharList, Ordering.then_eq_eq_iff, cmpOf_eq_eq, ih,
        List.cons.injEq]

theorem cmpCharList_eq_lt :
    ∀ (a b : List Char), cmpCharList a b = .lt ↔ List.Lex (· < ·) a b := by
  intro a
  induction a with
  | nil =>
    intro b
    cases b with
    | nil =>
      constructor
      · intro h; exact absurd h (by decide)
      · intro h; nomatch h
    | cons d ds =>
      constructor
      · intro _; exact List.Lex.nil
      · intro _; rfl
  | cons c cs ih =>
    intro b
    cases b with
    | nil =>
      constructor
      · intro h; simp [cmpCharList] at h
      · intro h; nomatch h
    | cons d ds =>
      simp only [cmpCharList, Ordering.then_eq_lt_iff, cmpOf_eq_lt, cmpOf_eq_eq, ih]
      constructor
      · rintro (h | ⟨hcd, hlt⟩)
        · exact List.Lex.rel h
        · subst hcd
          exact List.Lex.cons hlt
      · intro h
        cases h with
        | rel h1 => exact Or.inl h1
        | cons h2 => exact Or.inr ⟨rfl, h2⟩

/-- Mathlib's lexicographic order on String is exactly the Lex relation on
the underlying character lists. -/
theorem stringLt_iff_lex (a b : String) :
    a < b ↔ List.Lex (· < ·) a.data b.data := String.lt_iff_toList_lt

theorem cmpString_eq_cmpOf (a b : String) : cmpString a b = cmpOf a b := by
  rcases lt_trichotomy a b with h | h | h
  · rw [cmpOf_eq_lt.mpr h]
    exact (cmpCharList_eq_lt a.data b.data).mpr ((stringLt_iff_lex a b).mp h)
  · subst h
    rw [cmpOf_self]
    exact (cmpCharList_eq_eq a.data a.data).mpr rfl
  · rw [cmpOf_eq_gt.mpr h]
    cases hx : cmpString a b with
    | lt =>
      have hl : List.Lex (· < ·) a.data b.data :=
        (cmpCharList_eq_lt a.data b.data).mp hx
      exact absurd ((stringLt_iff_lex a b).mpr hl) (lt_asymm h)
    | eq =>
      have hd : a.data = b.data := (cmpCharList_eq_eq a.data b.data).mp hx
      have hab : a = b := String.ext hd
      subst hab
      exact absurd h (lt_irrefl a)
    | gt => rfl

theorem cmpString_eq_lt_iff (a b : String) : cmpString a b = .lt ↔ a < b := by
  rw [cmpString_eq_cmpOf]; exact cmpOf_eq_lt

theorem cmpString_eq_eq_iff (a b : String) : cmpString a b = .eq ↔ a = b := by
  rw [cmpString_eq_cmpOf]; exact cmpOf_eq_eq

theorem cmpString_eq_gt_iff (a b : String) : cmpString a b = .gt ↔ b < a := by
  rw [cmpString_eq_cmpOf]; exact cmpOf_eq_gt

theorem cmpString_self (a : String) : cmpString a a = .eq := by
  rw [cmpString_eq_cmpOf]; exact cmpOf_self a

theorem isLawfulCmp_cmpString : IsLawfulCmp cmpString := by
  have h : cmpString = fun a b : String => cmpOf a b := by
    funext a b
    exact cmpString_eq_cmpOf a b
  rw [h]
  exact isLawfulCmp_cmpOf

/-! ## Data model (src/api/rest/task.rs) -/

/-- Priority as in the Todoist API: 1 (Normal) up to 4 (Urgent);
the derived Rust Ord compares the numeric representation. -/
inductive Priority
  | Normal
  | High
  | VeryHigh
  | Urgent
deriving DecidableEq, Repr

/-- Numeric representation of a Priority, as in the repr(u8) Rust enum. -/
def Priority.val : Priority → Nat
  | .Normal => 1
  | .High => 2
  | .VeryHigh => 3
  | .Urgent => 4

/-- Unit of a task duration: minutes or days. -/
inductive DurationUnit
  | Minute
  | Day
deriving DecidableEq, Repr

/-- Duration of a task, as the sorting code in src/tasks/list.rs consumes it:
an amount (u32, so always below 2^32) together with a unit. -/
structure Duration where
  amount : Nat
  unit : DurationUnit
deriving DecidableEq, Repr

/-- DueDate from the Todoist API. Only the date field participates in the
ordering logic; the other fields are carried for completeness. -/
structure DueDate where
  string : String
  date : String
  timezone : Option String
  lang : String
  is_recurring : Bool
deriving DecidableEq, Repr

/-- Task record, restricted to the fields the hierarchy engine reads as
identifiers and sort or filter keys. The creation timestamp is embedded as an
integer (chrono DateTime values are totally ordered by their instant). -/
structure Task where
  id : String
  project_id : String
  section_id : Option String
  content : String
  labels : List String
  parent_id : Option String
  order : Int
  priority : Priority
  due : Option DueDate
  duration : Option Duration
  created_at : Int
deriving DecidableEq, Repr

/-! ## RFC 3339 parsing (model of chrono's DateTime::parse_from_rfc3339)

DueDate.exact_datetime delegates to chrono's parse_from_rfc3339, an external
library function. We model it at the documented RFC 3339 grammar: a full
date, the letter T (or t), a full time, an optional fractional part, and a
mandatory offset (Z, z, or a signed hh:mm). The result is the instant encoded
as nanoseconds since the Unix epoch, which is order-isomorphic to chrono's
DateTime ordering. Strings lacking the offset, such as plain dates or
floating datetimes, are rejected. -/

/-- Proleptic Gregorian leap-year rule. -/
def isLeapYear (y : Nat) : Bool :=
  (y % 4 == 0 && y % 100 != 0) || y % 400 == 0

/-- Number of days in a month (1 to 12) of a given year. -/
def daysInMonth (y m : Nat) : Nat :=
  match m with
  | 1 => 31
  | 2 => if isLeapYear y then 29 else 28
  | 3 => 31
  | 4 => 30
  | 5 => 31
  | 6 => 30
  | 7 => 31
  | 8 => 31
  | 9 => 30
  | 10 => 31
  | 11 => 30
  | 12 => 31
  | _ => 0

/-- Days in the months strictly before month m, leap day not counted. -/
def daysBeforeMonth (_y m : Nat) : Nat :=
  match m with
  | 1 => 0
  | 2 => 31
  | 3 => 59
  | 4 => 90
  | 5 => 120
  | 6 => 151
  | 7 => 181
  | 8 => 212
  | 9 => 243
  | 10 => 273
  | 11 => 304
  | 12 => 334
  | _ => 0

/-- Adjusted cumulative days before a month, accounting for leap years. -/
def daysBeforeMonthAdj (y m : Nat) : Nat :=
  daysBeforeMonth y m + (if 3 ≤ m && isLeapYear y then 1 else 0)

/-- Leap years strictly before year y (proleptic Gregorian, counting from
year 0, which is a leap year). -/
def leapsBefore (y : Nat) : Nat :=
  (y + 3) / 4 - (y + 99) / 100 + (y + 399) / 400

/-- Days from 0000-01-01 to the given civil date. -/
def civilDays (y m d : Nat) : Nat :=
  365 * y + leapsBefore y + daysBeforeMonthAdj y m + (d - 1)

/-- Numeric value of a decimal digit character. -/
def digitVal (ch : Char) : Nat := ch.toNat - 48

/-- Value of a list of decimal digit characters. -/
def digitsVal (cs : List Char) : Nat :=
  cs.foldl (fun acc ch => acc * 10 + digitVal ch) 0

/-- Nanoseconds denoted by a fractional-seconds digit string (first nine
digits are significant, shorter strings are padded on the right). -/
def nanosOfFrac (cs : List Char) : Nat :=
  let d9 := cs.take 9
  digitsVal d9 * 10 ^ (9 - d9.length)

/-- Parse the optional fractional-seconds part; returns the nanosecond count
and the unconsumed remainder of the input. -/
def parseFrac : List Char → Option (Nat × List Char)
  | '.' :: rest =>
    if (rest.takeWhile Char.isDigit).isEmpty then none
    else some (nanosOfFrac (rest.takeWhile Char.isDigit),
      rest.dropWhile Char.isDigit)
  | cs => some (0, cs)

/-- Parse a mandatory RFC 3339 offset: Z, z, or a signed hh:mm; the result is
the offset in seconds. -/
def parseOffset : List Char → Option Int
  | ['Z'] => some 0
  | ['z'] => some 0
  | [sgn, h1, h2, ':', m1, m2] =>
    if (sgn == '+' || sgn == '-') && [h1, h2, m1, m2].all Char.isDigit then
      let hh := digitVal h1 * 10 + digitVal h2
      let mm := digitVal m1 * 10 + digitVal m2
      if hh ≤ 23 && mm ≤ 59 then
        let secs : Int := hh * 3600 + mm * 60
        some (if sgn == '-' then -secs else secs)
      else none
    else none
  | _ => none

/-- Parse a full RFC 3339 datetime from a character list; the result is the
denoted instant in nanoseconds since the Unix epoch. -/
def parseRFC3339Chars : List Char → Option Int
  | y1 :: y2 :: y3 :: y4 :: '-' :: mo1 :: mo2 :: '-' :: d1 :: d2 :: t ::
      h1 :: h2 :: ':' :: n1 :: n2 :: ':' :: s1 :: s2 :: rest =>
    if (t == 'T' || t == 't') &&
        [y1, y2, y3, y4, mo1, mo2, d1, d2, h1, h2, n1, n2, s1, s2].all Char.isDigit then
      let y := digitsVal [y1, y2, y3, y4]
      let mo := digitVal mo1 * 10 + digitVal mo2
      let d := digitVal d1 * 10 + digitVal d2
      let h := digitVal h1 * 10 + digitVal h2
      let mi := digitVal n1 * 10 + digitVal n2
      let s := digitVal s1 * 10 + digitVal s2
      if 1 ≤ mo && mo ≤ 12 && 1 ≤ d && d ≤ daysInMonth y mo &&
          h ≤ 23 && mi ≤ 59 && s ≤ 60 then
        match parseFrac rest with
        | none => none
        | some (nanos, rest2) =>
          match parseOffset rest2 with
          | none => none
          | some off =>
            some ((((civilDays y mo d : Int) - 719528) * 86400 +
              h * 3600 + mi * 60 + s - off) * 1000000000 + nanos)
      else none
    else none
  | _ => none

/-- Parse a full RFC 3339 datetime from a string. -/
def parseRFC3339 (s : String) : Option Int := parseRFC3339Chars s.data

/-- Translation of DueDate::exact_datetime (src/api/rest/task.rs): the due
date counts as exact precisely when its date string is full RFC 3339. -/
def DueDate.exact_datetime (d : DueDate) : Option Int := parseRFC3339 d.date

/-- Exact due instant of a task, as read by the Default comparator
(self.due.as_ref().and_then(exact_datetime)). -/
def Task.exactDue (t : Task) : Option Int :=
  t.due.bind DueDate.exact_datetime

/-! ## The Default comparator (impl Ord for Task, src/api/rest/task.rs) -/

/-- The exact-due-time leg of the comparator: both present compares the
instants, a present instant sorts before an absent one, both absent ties. -/
def cmpExactOpt : Option Int → Option Int → Ordering
  | some l, some r => cmpOf l r
  | some _, none => .lt
  | none, some _ => .gt
  | none, none => .eq

theorem isLawfulCmp_cmpExactOpt : IsLawfulCmp cmpExactOpt := by
  refine ⟨?_, ?_, ?_⟩
  · intro a b
    cases a <;> cases b <;>
      first
        | rfl
        | exact cmpOf_swap _ _
  · intro a b d h1 h2
    cases a <;> cases b <;> cases d <;>
      simp only [cmpExactOpt] at h1 h2 ⊢ <;>
      first
        | rfl
        | exact absurd h1 (by decide)
        | exact absurd h2 (by decide)
        | exact cmpOf_eq_lt.mpr (lt_trans (cmpOf_eq_lt.mp h1) (cmpOf_eq_lt.mp h2))
  · intro a b d h
    cases a <;> cases b <;> cases d <;>
      simp only [cmpExactOpt] at h ⊢ <;>
      first
        | rfl
        | exact absurd h (by decide)
        | rw [cmpOf_eq_eq.mp h]

/-- Direct translation of impl Ord for Task (src/api/rest/task.rs lines
109-137): exact due instants first (a present one sorts ahead of an absent
one, whatever the priorities), then priority reversed so that the most urgent
comes first, then the manual order field ascending, then the id ascending. -/
def Task.cmp (a b : Task) : Ordering :=
  (cmpExactOpt a.exactDue b.exactDue).then
    (((cmpOf a.priority.val b.priority.val).swap).then
      ((cmpOf a.order b.order).then (cmpString a.id b.id)))

theorem isLawfulCmp_taskCmp : IsLawfulCmp Task.cmp := by
  have h1 : IsLawfulCmp (fun a b : Task => cmpExactOpt a.exactDue b.exactDue) :=
    isLawfulCmp_cmpExactOpt.comap Task.exactDue
  have h2 : IsLawfulCmp (fun a b : Task => (cmpOf a.priority.val b.priority.val).swap) :=
    (isLawfulCmp_cmpOf.comap (fun t : Task => t.priority.val)).swap_fn
  have h3 : IsLawfulCmp (fun a b : Task => cmpOf a.order b.order) :=
    isLawfulCmp_cmpOf.comap (fun t : Task => t.order)
  have h4 : IsLawfulCmp (fun a b : Task => cmpString a.id b.id) :=
    isLawfulCmp_cmpString.comap (fun t : Task => t.id)
  exact h1.then_comp (h2.then_comp (h3.then_comp h4))

/-! ## Trees and forests -/

/-- An assembled tree node: one task item owning its ordered children.
This is the Tree type of the engine (depth is not carried here; no claim
under verification mentions it). -/
inductive Tree (α : Type) where
  | mk (item : α) (subitems : List (Tree α))

/-- The wrapped item of a tree node. -/
def Tree.item {α : Type} : Tree α → α
  | .mk it _ => it

/-- The ordered children of a tree node. -/
def Tree.subitems {α : Type} : Tree α → List (Tree α)
  | .mk _ subs => subs

theorem Tree.sizeOf_subitems_lt {α : Type} [SizeOf α] (t : Tree α) :
    sizeOf t.subitems < sizeOf t := by
  cases t with
  | mk it subs =>
    simp only [Tree.subitems, Tree.mk.sizeOf_spec]
    omega

/-- Flatten a forest in depth-first preorder: each node followed by its
entire subtree. -/
def flattenForest {α : Type} : List (Tree α) → List α
  | [] => []
  | Tree.mk it subs :: rest => it :: (flattenForest subs ++ flattenForest rest)

/-- All tree nodes of a forest, each as its own subtree, in depth-first
preorder. -/
def subtreesF {α : Type} : List (Tree α) → List (Tree α)
  | [] => []
  | Tree.mk it subs :: rest =>
    Tree.mk it subs :: (subtreesF subs ++ subtreesF rest)

/-- Structural induction over forests of trees. -/
theorem forestInduction {α : Type} {motive : List (Tree α) → Prop}
    (nil : motive [])
    (cons : ∀ (it : α) (subs rest : List (Tree α)),
      motive subs → motive rest → motive (Tree.mk it subs :: rest)) :
    ∀ ts, motive ts := by
  have key : ∀ (n : Nat) (ts : List (Tree α)), sizeOf ts ≤ n → motive ts := by
    intro n
    induction n with
    | zero =>
      intro ts h
      cases ts with
      | nil => exact nil
      | cons t rest =>
        exfalso
        simp only [List.cons.sizeOf_spec] at h
        omega
    | succ n ih =>
      intro ts h
      cases ts with
      | nil => exact nil
      | cons t rest =>
        cases t with
        | mk it subs =>
          have hs : sizeOf subs ≤ n := by simp at h; omega
          have hr : sizeOf rest ≤ n := by simp at h; omega
          exact cons it subs rest (ih subs hs) (ih rest hr)
  intro ts
  exact key (sizeOf ts) ts (Nat.le_refl _)

/-! ## Sort keys (src/tasks/list.rs) -/

/-- The sort-by command line options; absence of a key selects the Default
comparator. -/
inductive SortBy
  | Created
  | Duration
deriving DecidableEq, Repr

/-- Wrapped u32 minutes used by the Duration sort arm: a minute amount is
taken as is, a day amount is multiplied by 24 * 60 in 32-bit unsigned
arithmetic, hence reduced modulo 2^32. -/
def durationMinutesWrapped (d : Duration) : Nat :=
  match d.unit with
  | .Minute => d.amount
  | .Day => (d.amount * 24 * 60) % 4294967296

/-- Duration in minutes with exact (unbounded) arithmetic. Modelled from the
spec: the day unit is converted by multiplying by 1440 for comparison
purposes. This is the reference value the claims compare the code against. -/
def durationMinutesExact (d : Duration) : Nat :=
  match d.unit with
  | .Minute => d.amount
  | .Day => d.amount * 1440

/-- The Duration sort comparator (src/tasks/list.rs, both the apply_sort and
the list_tasks_with_sort arm): both durations present compares wrapped
minutes, a present duration sorts first, both absent falls back to the
Default comparator. -/
def Task.cmpDuration (a b : Task) : Ordering :=
  match a.duration, b.duration with
  | some da, some db => cmpOf (durationMinutesWrapped da) (durationMinutesWrapped db)
  | some _, none => .lt
  | none, some _ => .gt
  | none, none => Task.cmp a b

/-- Comparator selected by the optional sort key, acting on tasks. -/
def sortKeyCmp : Option SortBy → Task → Task → Ordering
  | some .Created => fun a b => cmpOf a.created_at b.created_at
  | some .Duration => Task.cmpDuration
  | none => Task.cmp

/-- The same comparator lifted to tree nodes (Tree derefs to its item in the
source). -/
def cmpTree (key : Option SortBy) (a b : Tree Task) : Ordering :=
  sortKeyCmp key a.item b.item

/-- Boolean less-or-equal feeding the stable sort, as Rust's sort_by orders
by a three-way comparator. -/
def ordLE {α : Type} (c : α → α → Ordering) (a b : α) : Bool :=
  match c a b with
  | .gt => false
  | _ => true

/-- Stable sort of a sibling list by the selected key; translation of
apply_sort (src/tasks/list.rs), shared by the grouped and ungrouped paths. -/
def apply_sort (key : Option SortBy) (ts : List (Tree Task)) : List (Tree Task) :=
  ts.mergeSort (ordLE (cmpTree key))

/-- Printed task sequence of the ungrouped listing; translation of
list_tasks_with_sort (src/tasks/list.rs): sort the sibling list, then emit
each node followed by the recursive listing of its subitems. -/
def list_tasks_with_sort (key : Option SortBy) (ts : List (Tree Task)) : List Task :=
  (apply_sort key ts).attach.flatMap
    (fun x => x.1.item :: list_tasks_with_sort key x.1.subitems)
termination_by sizeOf ts
decreasing_by
  have hx : x.1 ∈ apply_sort key ts := x.2
  simp only [apply_sort, List.mem_mergeSort] at hx
  exact lt_trans (Tree.sizeOf_subitems_lt x.1) (List.sizeOf_lt_of_mem hx)

/-- The forest obtained by recursively sorting every sibling list with the
selected key, leaving the parent-child structure untouched. -/
def sortForestRec (key : Option SortBy) (ts : List (Tree Task)) : List (Tree Task) :=
  (apply_sort key ts).attach.map
    (fun x => Tree.mk x.1.item (sortForestRec key x.1.subitems))
termination_by sizeOf ts
decreasing_by
  have hx : x.1 ∈ apply_sort key ts := x.2
  simp only [apply_sort, List.mem_mergeSort] at hx
  exact lt_trans (Tree.sizeOf_subitems_lt x.1) (List.sizeOf_lt_of_mem hx)

/-! ## Grouping by project (src/tasks/list.rs) -/

/-- Push a tree node at the end of the bucket of the given project id. -/
def pushBucket (g : String → List (Tree Task)) (p : String) (t : Tree Task) :
    String → List (Tree Task) :=
  fun q => if q = p then g q ++ [t] else g q

/-- Translation of collect_tasks (src/tasks/list.rs): walk the forest in
preorder and push every node, including nested descendants, into the bucket
keyed by its own project id. -/
def collect_tasks : List (Tree Task) → (String → List (Tree Task)) →
    (String → List (Tree Task))
  | [], g => g
  | Tree.mk it subs :: rest, g =>
    collect_tasks rest (collect_tasks subs (pushBucket g it.project_id (Tree.mk it subs)))

/-- Empty bucket map. -/
def emptyBuckets : String → List (Tree Task) := fun _ => []

/-- Translation of count_all_subtasks (src/tasks/list.rs), presented on the
children list: sums 1 + count over each subtree. -/
def count_all_subtasks_list : List (Tree Task) → Nat
  | [] => 0
  | Tree.mk _ subs :: rest =>
    (1 + count_all_subtasks_list subs) + count_all_subtasks_list rest

/-- Translation of count_all_subtasks on a single node. -/
def count_all_subtasks (t : Tree Task) : Nat :=
  count_all_subtasks_list t.subitems

/-- Translation of count_all_tasks (src/tasks/list.rs): total of a bucket
including nested descendants. -/
def count_all_tasks (ts : List (Tree Task)) : Nat :=
  (ts.map (fun t => 1 + count_all_subtasks t)).sum

/-- The pair of counts printed in a project group header
(list_tasks_grouped_by_project, src/tasks/list.rs): directly bucketed
entries, then the total including nested descendants. -/
def groupHeaderCounts (ts : List (Tree Task)) (p : String) : Nat × Nat :=
  let bucket := collect_tasks ts emptyBuckets p
  (bucket.length, count_all_tasks bucket)

/-! ## Tree assembly

Tree::from_items lives in src/api/tree.rs, which is not among the provided
sources (only its callers and the Treeable impl are); the assembler below is
therefore modelled from the specification, section 4.1. -/

/-- Modelled from the spec: the single fatal error kind of Tree::from_items
(spec 4.1 and 7: a duplicated id is the only condition that aborts a run). -/
inductive AssemblyError
  | DuplicateID
deriving DecidableEq, Repr

/-- Look up a record by id; first match in input order (spec 4.1: an index
from id to Record, resolution by membership). -/
def findByID (rs : List Task) (i : String) : Option Task :=
  rs.find? (fun r => r.id == i)

/-- Resolved parent record of a record: its parent id looked up in the
collection. -/
def parentOf (rs : List Task) (r : Task) : Option Task :=
  r.parent_id.bind (findByID rs)

/-- Fuel-bounded walk up the resolved parent chain, testing whether a record
with the target id is encountered. -/
def walkHits (rs : List Task) (target : String) : Task → Nat → Bool
  | _, 0 => false
  | r, fuel + 1 =>
    match parentOf rs r with
    | none => false
    | some p => p.id == target || walkHits rs target p fuel

/-- Modelled from the spec (4.1 cycle detection): walking the parent chain
from the record upward, the record's own id reappears. The walk is bounded
by the collection size, which covers every simple chain. -/
def onCycle (rs : List Task) (r : Task) : Bool :=
  walkHits rs r.id r rs.length

/-- Modelled from the spec (4.1): the effective parent of a record — its
parent id when that resolves to a record of the collection and the cycle
check does not fire; otherwise none, and the record becomes a root. -/
def effParent (rs : List Task) (r : Task) : Option String :=
  match r.parent_id with
  | none => none
  | some p =>
    match findByID rs p with
    | none => none
    | some _ => if onCycle rs r then none else some p

/-- Children records of a given id under the effective-parent relation, in
input order (spec 4.1: ordering of children follows input order). -/
def childrenRecs (rs : List Task) (i : String) : List Task :=
  rs.filter (fun c => effParent rs c == some i)

/-- Fuel-bounded construction of the subtree rooted at a record. -/
def buildTree (rs : List Task) : Nat → Task → Tree Task
  | 0, r => Tree.mk r []
  | fuel + 1, r =>
    Tree.mk r ((childrenRecs rs r.id).map (buildTree rs fuel))

/-- The forest of all effective roots in input order, each root with its
parent link reset (Treeable::reset_parent, src/api/rest/task.rs 104-106). -/
def assembledForest (rs : List Task) : List (Tree Task) :=
  (rs.filter (fun r => (effParent rs r).isNone)).map
    (fun r => buildTree rs rs.length { r with parent_id := none })

/-- Modelled from the spec: Tree::from_items (4.1): abort with DuplicateID
when two records share an id, otherwise assemble the severed forest. -/
def assemble (rs : List Task) : Except AssemblyError (List (Tree Task)) :=
  if (rs.map Task.id).Nodup then .ok (assembledForest rs)
  else .error .DuplicateID

/-! ## Filter engine — modelled from the spec (4.2) -/

/-- Does any node of the forest, recursively, satisfy the predicate. -/
def anyMatchF (pred : Task → Bool) : List (Tree Task) → Bool
  | [] => false
  | Tree.mk it subs :: rest =>
    pred it || anyMatchF pred subs || anyMatchF pred rest

/-- Modelled from the spec (4.2): strict mode keeps a node only when its own
record matches; expanding mode also keeps it when a descendant matches.
Surviving siblings keep their relative order; the function is total and an
empty result is an ordinary value. -/
def filterForest (pred : Task → Bool) (expand : Bool) :
    List (Tree Task) → List (Tree Task)
  | [] => []
  | Tree.mk it subs :: rest =>
    if pred it || (expand && anyMatchF pred subs) then
      Tree.mk it (filterForest pred expand subs) :: filterForest pred expand rest
    else
      filterForest pred expand rest

/-! ## Concrete record builders for check instances -/

/-- A minimal task with the given id and all other fields at their plainest
values. -/
def mkTask (i : String) : Task :=
  { id := i, project_id := "", section_id := none, content := "",
    labels := [], parent_id := none, order := 0, priority := .Normal,
    due := none, duration := none, created_at := 0 }

/-- A due date whose date string is the given literal. -/
def mkDue (s : String) : DueDate :=
  { string := s, date := s, timezone := none, lang := "en",
    is_recurring := false }

/-! ## Claims C3 and C4: the Default comparator -/

/-- The exact-due leg of the comparator is tied: neither side has an exact
instant, or both have the same one. -/
def DueTie (a b : Task) : Prop :=
  (a.exactDue = none ∧ b.exactDue = none) ∨
  (∃ t, a.exactDue = some t ∧ b.exactDue = some t)

theorem dueTie_cmpExactOpt {a b : Task} (h : DueTie a b) :
    cmpExactOpt a.exactDue b.exactDue = .eq := by
  rcases h with ⟨h1, h2⟩ | ⟨t, h1, h2⟩ <;> rw [h1, h2]
  · rfl
  · exact cmpOf_self t

/-- A tie of the full Default comparator forces equal ids (the id leg is the
final tiebreaker). -/
theorem taskCmp_eq_imp_id {a b : Task} (h : Task.cmp a b = .eq) :
    a.id = b.id := by
  unfold Task.cmp at h
  rw [Ordering.then_eq_eq_iff] at h
  rcases h with ⟨_, h2⟩
  rw [Ordering.then_eq_eq_iff] at h2
  rcases h2 with ⟨_, h3⟩
  rw [Ordering.then_eq_eq_iff] at h3
  exact (cmpString_eq_eq_iff _ _).mp h3.2

/-- C3: for every pair of Tasks the Default comparator decides by this exact
precedence, first decisive key winning: ascending exact due instants with a
present instant before an absent one regardless of priority, then priority
most urgent first, then the manual order field ascending, then the
identifier ascending. -/
theorem default_cmp_precedence :
    (∀ a b ta tb, a.exactDue = some ta → b.exactDue = some tb →
      (ta < tb → Task.cmp a b = .lt) ∧ (tb < ta → Task.cmp a b = .gt)) ∧
    (∀ a b ta, a.exactDue = some ta → b.exactDue = none →
      Task.cmp a b = .lt) ∧
    (∀ a b tb, a.exactDue = none → b.exactDue = some tb →
      Task.cmp a b = .gt) ∧
    (∀ a b, DueTie a b →
      (b.priority.val < a.priority.val → Task.cmp a b = .lt) ∧
      (a.priority.val < b.priority.val → Task.cmp a b = .gt)) ∧
    (∀ a b, DueTie a b → a.priority = b.priority →
      (a.order < b.order → Task.cmp a b = .lt) ∧
      (b.order < a.order → Task.cmp a b = .gt)) ∧
    (∀ a b, DueTie a b → a.priority = b.priority → a.order = b.order →
      (a.id < b.id → Task.cmp a b = .lt) ∧
      (b.id < a.id → Task.cmp a b = .gt) ∧
      (a.id = b.id → Task.cmp a b = .eq)) := by
  refine ⟨?_, ?_, ?_, ?_, ?_, ?_⟩
  · intro a b ta tb h1 h2
    constructor
    · intro hlt
      unfold Task.cmp
      rw [h1, h2]
      show (cmpOf ta tb).then _ = _
      rw [cmpOf_eq_lt.mpr hlt]
      rfl
    · intro hgt
      unfold Task.cmp
      rw [h1, h2]
      show (cmpOf ta tb).then _ = _
      rw [cmpOf_eq_gt.mpr hgt]
      rfl
  · intro a b ta h1 h2
    unfold Task.cmp
    rw [h1, h2]
    rfl
  · intro a b tb h1 h2
    unfold Task.cmp
    rw [h1, h2]
    rfl
  · intro a b htie
    have he := dueTie_cmpExactOpt htie
    constructor
    · intro hp
      unfold Task.cmp
      rw [he, cmpOf_eq_gt.mpr hp]
      rfl
    · intro hp
      unfold Task.cmp
      rw [he, cmpOf_eq_lt.mpr hp]
      rfl
  · intro a b htie hprio
    have he := dueTie_cmpExactOpt htie
    constructor
    · intro ho
      unfold Task.cmp
      rw [he, hprio, cmpOf_self, cmpOf_eq_lt.mpr ho]
      rfl
    · intro ho
      unfold Task.cmp
      rw [he, hprio, cmpOf_self, cmpOf_eq_gt.mpr ho]
      rfl
  · intro a b htie hprio horder
    have he := dueTie_cmpExactOpt htie
    refine ⟨?_, ?_, ?_⟩
    · intro hid
      unfold Task.cmp
      rw [he, hprio, cmpOf_self, horder, cmpOf_self, cmpString_eq_cmpOf,
        cmpOf_eq_lt.mpr hid]
      rfl
    · intro hid
      unfold Task.cmp
      rw [he, hprio, cmpOf_self, horder, cmpOf_self, cmpString_eq_cmpOf,
        cmpOf_eq_gt.mpr hid]
      rfl
    · intro hid
      unfold Task.cmp
      rw [he, hprio, cmpOf_self, horder, cmpOf_self, hid, cmpString_self]
      rfl

/-- Task with an early exact due instant. -/
def taskDueEarly : Task :=
  { mkTask "1" with due := some (mkDue "2025-01-01T09:00:00Z") }

/-- Task with a later exact due instant. -/
def taskDueLate : Task :=
  { mkTask "2" with due := some (mkDue "2025-01-02T09:00:00Z") }

/-- Urgent task without a due date. -/
def taskUrgentNoDue : Task :=
  { mkTask "3" with priority := .Urgent }

theorem default_cmp_precedence_witness :
    Task.cmp taskDueEarly taskDueLate = .lt ∧
    Task.cmp taskDueEarly taskUrgentNoDue = .lt ∧
    Task.cmp taskUrgentNoDue taskDueEarly = .gt ∧
    Task.cmp (mkTask "1") taskUrgentNoDue = .gt ∧
    Task.cmp ({ mkTask "1" with order := 2 }) ({ mkTask "2" with order := 5 }) = .lt ∧
    Task.cmp (mkTask "1") (mkTask "2") = .lt := by
  refine ⟨?_, ?_, ?_, ?_, ?_, ?_⟩
  · exact (default_cmp_precedence.1 taskDueEarly taskDueLate
      1735722000000000000 1735808400000000000 (by decide) (by decide)).1 (by decide)
  · exact default_cmp_precedence.2.1 taskDueEarly taskUrgentNoDue
      1735722000000000000 (by decide) (by decide)
  · exact default_cmp_precedence.2.2.1 taskUrgentNoDue taskDueEarly
      1735722000000000000 (by decide) (by decide)
  · exact (default_cmp_precedence.2.2.2.1 (mkTask "1") taskUrgentNoDue
      (Or.inl ⟨by decide, by decide⟩)).2 (by decide)
  · exact (default_cmp_precedence.2.2.2.2.1 _ _
      (Or.inl ⟨by decide, by decide⟩) (by decide)).1 (by decide)
  · exact (default_cmp_precedence.2.2.2.2.2 (mkTask "1") (mkTask "2")
      (Or.inl ⟨by decide, by decide⟩) (by decide) (by decide)).1
      ((cmpString_eq_lt_iff _ _).mp (by decide))

/-! ### Lawfulness consequences: strict total order and determinism -/

theorem ordLE_eq_true_iff {α : Type} (c : α → α → Ordering) (a b : α) :
    ordLE c a b = true ↔ c a b ≠ .gt := by
  unfold ordLE
  cases c a b <;> simp

theorem ordLE_trans {α : Type} {c : α → α → Ordering} (hc : IsLawfulCmp c) :
    ∀ a b d, ordLE c a b → ordLE c b d → ordLE c a d := by
  intro a b d h1 h2
  rw [ordLE_eq_true_iff] at h1 h2 ⊢
  cases hab : c a b with
  | gt => exact absurd hab h1
  | eq =>
    rw [← hc.eq_left a b d hab]
    exact h2
  | lt =>
    cases hbd : c b d with
    | gt => exact absurd hbd h2
    | eq =>
      rw [← hc.eq_right a b d hbd, hab]
      decide
    | lt =>
      rw [hc.lt_trans a b d hab hbd]
      decide

theorem ordLE_total {α : Type} {c : α → α → Ordering} (hc : IsLawfulCmp c) :
    ∀ a b, ordLE c a b || ordLE c b a := by
  intro a b
  rw [Bool.or_eq_true, ordLE_eq_true_iff, ordLE_eq_true_iff]
  by_cases h : c a b = .gt
  · right
    rw [(hc.gt_iff a b).mp h]
    decide
  · left
    exact h

/-- Two lists sorted by a lawful comparator, equal as multisets and with
pairwise distinct keys under a tie-determining key function, are equal. -/
theorem eq_of_sorted_of_perm {α β : Type} {c : α → α → Ordering}
    (hc : IsLawfulCmp c) (f : α → β) (hf : ∀ a b, c a b = .eq → f a = f b) :
    ∀ (l₁ l₂ : List α),
      l₁.Pairwise (fun a b => ordLE c a b = true) →
      l₂.Pairwise (fun a b => ordLE c a b = true) →
      l₁.Perm l₂ → (l₁.map f).Nodup → l₁ = l₂ := by
  intro l₁
  induction l₁ with
  | nil =>
    intro l₂ _ _ hp _
    exact hp.nil_eq
  | cons a t₁ ih =>
    intro l₂ hs₁ hs₂ hp hnd
    cases l₂ with
    | nil => exact absurd hp.eq_nil (by simp)
    | cons b t₂ =>
      have hab : a = b := by
        by_contra hne
        have ha2 : a ∈ t₂ := by
          have haMem : a ∈ b :: t₂ := hp.mem_iff.mp (List.mem_cons_self a t₁)
          rcases List.mem_cons.mp haMem with he | h
          · exact absurd he hne
          · exact h
        have hb1 : b ∈ t₁ := by
          have hbMem : b ∈ a :: t₁ := hp.mem_iff.mpr (List.mem_cons_self b t₂)
          rcases List.mem_cons.mp hbMem with he | h
          · exact absurd he.symm hne
          · exact h
        have hle1 : ordLE c a b = true := (List.pairwise_cons.mp hs₁).1 b hb1
        have hle2 : ordLE c b a = true := (List.pairwise_cons.mp hs₂).1 a ha2
        rw [ordLE_eq_true_iff] at hle1 hle2
        have heq : c a b = .eq := by
          cases hcc : c a b with
          | gt => exact absurd hcc hle1
          | eq => rfl
          | lt => exact absurd ((hc.gt_iff b a).mpr hcc) hle2
        have hkey : f a = f b := hf a b heq
        have hmem : f a ∈ t₁.map f := by
          rw [hkey]
          exact List.mem_map_of_mem f hb1
        have hnd' : f a ∉ t₁.map f := by
          rw [List.map_cons, List.nodup_cons] at hnd
          exact hnd.1
        exact hnd' hmem
      subst hab
      have hp' := hp.cons_inv
      have ht₁ := (List.pairwise_cons.mp hs₁).2
      have ht₂ := (List.pairwise_cons.mp hs₂).2
      have hnd' : (t₁.map f).Nodup := by
        rw [List.map_cons, List.nodup_cons] at hnd
        exact hnd.2
      rw [ih t₂ ht₁ ht₂ hp' hnd']

theorem isLawfulCmp_cmpTree_default : IsLawfulCmp (cmpTree none) :=
  isLawfulCmp_taskCmp.comap Tree.item

/-- C4: the Default comparator is a strict total order up to identifier:
swapping arguments swaps the result, equal results compose transitively, a
tie forces equal ids, all earlier keys tied means ascending id decides, and
sorting a forest of pairwise distinct ids with the Default key is a function
of its multiset of trees alone (deterministic, input-order independent). -/
theorem default_cmp_strict_total_order :
    (∀ a b, (Task.cmp a b).swap = Task.cmp b a) ∧
    (∀ (o : Ordering) (a b d : Task),
      Task.cmp a b = o → Task.cmp b d = o → Task.cmp a d = o) ∧
    (∀ a b, Task.cmp a b = .eq → a.id = b.id) ∧
    (∀ a b, a.exactDue = none → b.exactDue = none →
      a.priority = b.priority → a.order = b.order → a.id < b.id →
      Task.cmp a b = .lt) ∧
    (∀ ts₁ ts₂ : List (Tree Task), ts₁.Perm ts₂ →
      (ts₁.map (fun t => t.item.id)).Nodup →
      apply_sort none ts₁ = apply_sort none ts₂) := by
  have hc := isLawfulCmp_taskCmp
  refine ⟨hc.symm, ?_, ?_, ?_, ?_⟩
  · intro o a b d h1 h2
    cases o with
    | lt => exact hc.lt_trans a b d h1 h2
    | eq =>
      rw [← hc.eq_left a b d h1]
      exact h2
    | gt =>
      have l1 : Task.cmp b a = .lt := (hc.gt_iff a b).mp h1
      have l2 : Task.cmp d b = .lt := (hc.gt_iff b d).mp h2
      exact (hc.gt_iff a d).mpr (hc.lt_trans d b a l2 l1)
  · intro a b h
    exact taskCmp_eq_imp_id h
  · intro a b h1 h2 h3 h4 h5
    unfold Task.cmp
    rw [h1, h2]
    show Ordering.eq.then _ = _
    rw [h3, cmpOf_self, h4, cmpOf_self, cmpString_eq_cmpOf, cmpOf_eq_lt.mpr h5]
    rfl
  · intro ts₁ ts₂ hperm hnd
    have hlaw := isLawfulCmp_cmpTree_default
    have hs₁ := List.sorted_mergeSort
      (fun a b d => ordLE_trans hlaw a b d)
      (fun a b => ordLE_total hlaw a b) ts₁
    have hs₂ := List.sorted_mergeSort
      (fun a b d => ordLE_trans hlaw a b d)
      (fun a b => ordLE_total hlaw a b) ts₂
    have hperm' : (apply_sort none ts₁).Perm (apply_sort none ts₂) :=
      ((List.mergeSort_perm ts₁ _).trans hperm).trans
        (List.mergeSort_perm ts₂ _).symm
    have hnd' : ((apply_sort none ts₁).map (fun t => t.item.id)).Nodup :=
      (((List.mergeSort_perm ts₁ (ordLE (cmpTree none))).map _).symm).nodup hnd
    exact eq_of_sorted_of_perm hlaw (fun t => t.item.id)
      (fun a b h => taskCmp_eq_imp_id h) _ _ hs₁ hs₂ hperm' hnd'

/-- A leaf tree node around a task. -/
def leafT (t : Task) : Tree Task := Tree.mk t []

theorem default_cmp_strict_total_order_witness :
    (Task.cmp (mkTask "1") (mkTask "2")).swap = Task.cmp (mkTask "2") (mkTask "1") ∧
    Task.cmp (mkTask "1") (mkTask "3") = .lt ∧
    (mkTask "1").id = (mkTask "1").id ∧
    Task.cmp (mkTask "1") (mkTask "2") = .lt ∧
    apply_sort none [leafT (mkTask "2"), leafT (mkTask "1")] =
      apply_sort none [leafT (mkTask "1"), leafT (mkTask "2")] := by
  refine ⟨?_, ?_, ?_, ?_, ?_⟩
  · exact default_cmp_strict_total_order.1 (mkTask "1") (mkTask "2")
  · exact default_cmp_strict_total_order.2.1 .lt (mkTask "1") (mkTask "2")
      (mkTask "3") (by decide) (by decide)
  · exact default_cmp_strict_total_order.2.2.1 (mkTask "1") (mkTask "1")
      (by decide)
  · exact default_cmp_strict_total_order.2.2.2.1 (mkTask "1") (mkTask "2")
      (by decide) (by decide) (by decide) (by decide)
      ((cmpString_eq_lt_iff _ _).mp (by decide))
  · exact default_cmp_strict_total_order.2.2.2.2
      [leafT (mkTask "2"), leafT (mkTask "1")]
      [leafT (mkTask "1"), leafT (mkTask "2")]
      (List.Perm.swap (leafT (mkTask "1")) (leafT (mkTask "2")) [])
      (by decide)

/-! ## Claims C5 and C10: the Duration sort key -/

/-- Below the u32 bound the wrapped day conversion equals the exact one, so
the Duration comparator agrees with exact minute comparison. -/
theorem cmpDuration_exact_of_bounded {a b : Task} {da db : Duration}
    (ha : a.duration = some da) (hb : b.duration = some db)
    (hda : da.unit = .Day → da.amount ≤ 2982616)
    (hdb : db.unit = .Day → db.amount ≤ 2982616) :
    Task.cmpDuration a b =
      cmpOf (durationMinutesExact da) (durationMinutesExact db) := by
  have key : ∀ (d : Duration), (d.unit = .Day → d.amount ≤ 2982616) →
      durationMinutesWrapped d = durationMinutesExact d := by
    intro d hd
    cases hu : d.unit with
    | Minute => simp [durationMinutesWrapped, durationMinutesExact, hu]
    | Day =>
      have hbound := hd hu
      simp only [durationMinutesWrapped, durationMinutesExact, hu]
      have h1440 : d.amount * 24 * 60 = d.amount * 1440 := by ring
      rw [h1440]
      exact Nat.mod_eq_of_lt (by omega)
  unfold Task.cmpDuration
  rw [ha, hb]
  show cmpOf (durationMinutesWrapped da) (durationMinutesWrapped db) = _
  rw [key da hda, key db hdb]

/-- Task with a day-unit duration amount just past the u32 bound: the
conversion 2982617 * 1440 = 4294968480 wraps to 1184 modulo 2^32. -/
def taskBigDay : Task :=
  { mkTask "a" with duration := some { amount := 2982617, unit := .Day } }

/-- Task with a three-million-minute duration. -/
def taskManyMinutes : Task :=
  { mkTask "b" with duration := some { amount := 3000000, unit := .Minute } }

/-- C5 counterexample: with durations 2982617 days and 3000000 minutes, the
exact normalization would order the day task after the minute task (its
exact minute count is larger, so the claimed comparison is gt), but the code
compares the wrapped u32 product and yields lt. -/
theorem duration_cmp_overflow_counterexample :
    Task.cmpDuration taskBigDay taskManyMinutes = .lt ∧
    cmpOf (durationMinutesExact { amount := 2982617, unit := .Day })
      (durationMinutesExact { amount := 3000000, unit := .Minute }) = .gt := by
  exact ⟨by decide, by decide⟩

/-- C5 (amended): under the Duration key, Tasks that both carry durations
with day amounts at most 2982616 compare ascending by duration normalized to
minutes (day amount times 1440); a Task with a duration sorts before one
without; if neither has a duration the comparison equals the Default
comparator; and a 100-minute Task sorts before a 2-day Task. -/
theorem duration_cmp_amended :
    (∀ (a b : Task) (da db : Duration),
      a.duration = some da → b.duration = some db →
      (da.unit = .Day → da.amount ≤ 2982616) →
      (db.unit = .Day → db.amount ≤ 2982616) →
      Task.cmpDuration a b =
        cmpOf (durationMinutesExact da) (durationMinutesExact db)) ∧
    (∀ (a b : Task) (da : Duration), a.duration = some da →
      b.duration = none → Task.cmpDuration a b = .lt) ∧
    (∀ a b : Task, a.duration = none → b.duration = none →
      Task.cmpDuration a b = Task.cmp a b) ∧
    (∀ a b : Task, a.duration = some { amount := 100, unit := .Minute } →
      b.duration = some { amount := 2, unit := .Day } →
      Task.cmpDuration a b = .lt) := by
  refine ⟨?_, ?_, ?_, ?_⟩
  · intro a b da db ha hb hda hdb
    exact cmpDuration_exact_of_bounded ha hb hda hdb
  · intro a b da ha hb
    unfold Task.cmpDuration
    rw [ha, hb]
  · intro a b ha hb
    unfold Task.cmpDuration
    rw [ha, hb]
  · intro a b ha hb
    unfold Task.cmpDuration
    rw [ha, hb]
    show cmpOf (durationMinutesWrapped { amount := 100, unit := .Minute })
      (durationMinutesWrapped { amount := 2, unit := .Day }) = .lt
    decide

/-- Task with a 100-minute duration. -/
def taskMin100 : Task :=
  { mkTask "m" with duration := some { amount := 100, unit := .Minute } }

/-- Task with a 2-day duration. -/
def taskDay2 : Task :=
  { mkTask "d" with duration := some { amount := 2, unit := .Day } }

theorem duration_cmp_amended_witness :
    Task.cmpDuration taskMin100 taskDay2 =
      cmpOf (durationMinutesExact { amount := 100, unit := .Minute })
        (durationMinutesExact { amount := 2, unit := .Day }) ∧
    Task.cmpDuration taskMin100 (mkTask "x") = .lt ∧
    Task.cmpDuration (mkTask "x") (mkTask "y") =
      Task.cmp (mkTask "x") (mkTask "y") ∧
    Task.cmpDuration taskMin100 taskDay2 = .lt := by
  refine ⟨?_, ?_, ?_, ?_⟩
  · exact duration_cmp_amended.1 taskMin100 taskDay2 _ _ rfl rfl
      (by decide) (by decide)
  · exact duration_cmp_amended.2.1 taskMin100 (mkTask "x") _ rfl rfl
  · exact duration_cmp_amended.2.2.1 (mkTask "x") (mkTask "y") rfl rfl
  · exact duration_cmp_amended.2.2.2 taskMin100 taskDay2 rfl rfl

/-- C10: the Duration key converts a day amount n to minutes as n * 24 * 60
reduced modulo 2^32; amounts up to 2982616 keep the product below 2^32 and
make the comparison agree with exact minute comparison; amounts above that
bound push the product past the u32 range, so the stored comparison value is
the wrapped remainder, strictly below the exact value. -/
theorem duration_u32_wrap :
    (∀ d : Duration, d.unit = .Day →
      durationMinutesWrapped d = (d.amount * 24 * 60) % 4294967296) ∧
    (∀ n : Nat, n ≤ 2982616 → n * 24 * 60 < 4294967296) ∧
    (∀ (a b : Task) (da db : Duration),
      a.duration = some da → b.duration = some db →
      (da.unit = .Day → da.amount ≤ 2982616) →
      (db.unit = .Day → db.amount ≤ 2982616) →
      Task.cmpDuration a b =
        cmpOf (durationMinutesExact da) (durationMinutesExact db)) ∧
    (∀ n : Nat, 2982616 < n → 4294967296 ≤ n * 24 * 60) ∧
    (∀ d : Duration, d.unit = .Day → 2982616 < d.amount →
      durationMinutesWrapped d < durationMinutesExact d) := by
  refine ⟨?_, ?_, ?_, ?_, ?_⟩
  · intro d hu
    simp [durationMinutesWrapped, hu]
  · intro n h
    omega
  · intro a b da db ha hb hda hdb
    exact cmpDuration_exact_of_bounded ha hb hda hdb
  · intro n h
    omega
  · intro d hu h
    simp only [durationMinutesWrapped, durationMinutesExact, hu]
    have h1440 : d.amount * 24 * 60 = d.amount * 1440 := by ring
    rw [h1440]
    have hmod : d.amount * 1440 % 4294967296 < 4294967296 :=
      Nat.mod_lt _ (by omega)
    omega

theorem duration_u32_wrap_witness :
    durationMinutesWrapped { amount := 5, unit := .Day } =
      (5 * 24 * 60) % 4294967296 ∧
    2 * 24 * 60 < 4294967296 ∧
    Task.cmpDuration taskMin100 taskDay2 =
      cmpOf (durationMinutesExact { amount := 100, unit := .Minute })
        (durationMinutesExact { amount := 2, unit := .Day }) ∧
    4294967296 ≤ 2982617 * 24 * 60 ∧
    durationMinutesWrapped { amount := 2982617, unit := .Day } <
      durationMinutesExact { amount := 2982617, unit := .Day } := by
  refine ⟨?_, ?_, ?_, ?_, ?_⟩
  · exact duration_u32_wrap.1 { amount := 5, unit := .Day } rfl
  · exact duration_u32_wrap.2.1 2 (by decide)
  · exact duration_u32_wrap.2.2.1 taskMin100 taskDay2 _ _ rfl rfl
      (by decide) (by decide)
  · exact duration_u32_wrap.2.2.2.1 2982617 (by decide)
  · exact duration_u32_wrap.2.2.2.2 { amount := 2982617, unit := .Day }
      rfl (by decide)

/-! ## Claim C9: exact due times require a full RFC 3339 date string -/

theorem length_dropWhile_le (p : Char → Bool) :
    ∀ (l : List Char), (l.dropWhile p).length ≤ l.length := by
  intro l
  induction l with
  | nil => simp
  | cons a l ih =>
    rw [List.dropWhile_cons]
    split
    · simp only [List.length_cons]
      omega
    · simp

theorem parseOffset_length {cs : List Char} {v : Int}
    (h : parseOffset cs = some v) : 1 ≤ cs.length := by
  unfold parseOffset at h
  split at h
  · simp
  · simp
  · simp
  · exact absurd h (by simp)

theorem parseFrac_length {cs : List Char} {n : Nat} {rest2 : List Char}
    (h : parseFrac cs = some (n, rest2)) : rest2.length ≤ cs.length := by
  unfold parseFrac at h
  split at h
  · split at h
    · exact absurd h (by simp)
    · rename_i rest _
      have h2 : rest2 = rest.dropWhile Char.isDigit := by
        have := Option.some.inj h
        exact (Prod.mk.injEq _ _ _ _ ▸ this).2.symm
      rw [h2]
      simp only [List.length_cons]
      have := length_dropWhile_le Char.isDigit rest
      omega
  · have h2 : rest2 = cs := by
      have := Option.some.inj h
      exact (Prod.mk.injEq _ _ _ _ ▸ this).2.symm
    rw [h2]

theorem parseRFC3339Chars_length {cs : List Char} {v : Int}
    (h : parseRFC3339Chars cs = some v) : 20 ≤ cs.length := by
  unfold parseRFC3339Chars at h
  split at h
  · split at h
    · dsimp only at h
      split at h
      · split at h
        · exact absurd h (by simp)
        · rename_i hfrac
          split at h
          · exact absurd h (by simp)
          · rename_i nanos rest2 _ off hoff
            have h1 := parseOffset_length hoff
            have h2 := parseFrac_length hfrac
            simp only [List.length_cons]
            omega
      · exact absurd h (by simp)
    · exact absurd h (by simp)
  · exact absurd h (by simp)

/-- A due date whose date string is shorter than a minimal RFC 3339
datetime (20 characters) has no exact datetime; this covers both plain
dates (10 characters) and floating datetimes (19 characters). -/
theorem exactDatetime_none_of_short {d : DueDate} (h : d.date.length ≤ 19) :
    d.exact_datetime = none := by
  unfold DueDate.exact_datetime parseRFC3339
  cases hx : parseRFC3339Chars d.date.data with
  | none => rfl
  | some v =>
    have hlen := parseRFC3339Chars_length hx
    have hsl : d.date.length = d.date.data.length := rfl
    omega

/-- C9: a due date counts as an exact timestamp only when its date string is
full RFC 3339: date-only and floating datetime strings produce no exact
datetime, a string with an explicit offset does, and a Task whose due dates
are such short strings is compared as having no exact timestamp, falling
through to the priority leg. -/
theorem exact_datetime_requires_offset :
    (∀ d : DueDate, d.date.length ≤ 19 → d.exact_datetime = none) ∧
    DueDate.exact_datetime (mkDue "2025-01-01") = none ∧
    DueDate.exact_datetime (mkDue "2025-01-01T09:00:00") = none ∧
    (DueDate.exact_datetime (mkDue "2025-01-01T09:00:00Z")).isSome = true ∧
    (∀ (a b : Task) (da db : DueDate),
      a.due = some da → da.date.length ≤ 19 →
      b.due = some db → db.date.length ≤ 19 →
      b.priority.val < a.priority.val → Task.cmp a b = .lt) := by
  refine ⟨?_, ?_, ?_, ?_, ?_⟩
  · intro d h
    exact exactDatetime_none_of_short h
  · exact exactDatetime_none_of_short (by decide)
  · exact exactDatetime_none_of_short (by decide)
  · decide
  · intro a b da db ha hla hb hlb hp
    have ea : a.exactDue = none := by
      unfold Task.exactDue
      rw [ha, Option.some_bind]
      exact exactDatetime_none_of_short hla
    have eb : b.exactDue = none := by
      unfold Task.exactDue
      rw [hb, Option.some_bind]
      exact exactDatetime_none_of_short hlb
    unfold Task.cmp
    rw [ea, eb]
    show Ordering.eq.then _ = _
    rw [cmpOf_eq_gt.mpr hp]
    rfl

/-- Urgent task with a floating (offset-less) due datetime. -/
def taskFloatUrgent : Task :=
  { mkTask "f1" with
    priority := .Urgent
    due := some (mkDue "2025-06-05T10:00:00") }

/-- Normal-priority task with a date-only due date. -/
def taskDateOnly : Task :=
  { mkTask "f2" with due := some (mkDue "2025-06-01") }

theorem exact_datetime_requires_offset_witness :
    DueDate.exact_datetime (mkDue "2031-12-31") = none ∧
    Task.cmp taskFloatUrgent taskDateOnly = .lt := by
  constructor
  · exact exact_datetime_requires_offset.1 (mkDue "2031-12-31") (by decide)
  · exact exact_datetime_requires_offset.2.2.2.2 taskFloatUrgent taskDateOnly
      (mkDue "2025-06-05T10:00:00") (mkDue "2025-06-01")
      rfl (by decide) rfl (by decide) (by decide)

/-! ## Claim C6: sorting permutes only sibling groups -/

theorem list_tasks_with_sort_eq (key : Option SortBy) (ts : List (Tree Task)) :
    list_tasks_with_sort key ts =
      (apply_sort key ts).flatMap
        (fun t => t.item :: list_tasks_with_sort key t.subitems) := by
  conv_lhs => unfold list_tasks_with_sort
  simp only [List.flatMap_subtype, List.unattach_attach]

theorem sortForestRec_eq (key : Option SortBy) (ts : List (Tree Task)) :
    sortForestRec key ts =
      (apply_sort key ts).map
        (fun t => Tree.mk t.item (sortForestRec key t.subitems)) := by
  conv_lhs => unfold sortForestRec
  simp only [List.map_subtype, List.unattach_attach]

theorem flattenForest_nil {α : Type} : flattenForest ([] : List (Tree α)) = [] := by
  simp only [flattenForest]

theorem subtreesF_nil {α : Type} : subtreesF ([] : List (Tree α)) = [] := by
  simp only [subtreesF]

theorem flattenForest_append {α : Type} (ts ts' : List (Tree α)) :
    flattenForest (ts ++ ts') = flattenForest ts ++ flattenForest ts' := by
  induction ts with
  | nil => simp [flattenForest_nil]
  | cons t rest ih =>
    cases t with
    | mk it subs =>
      simp only [List.cons_append, flattenForest, ih, List.append_assoc,
        List.cons.injEq, true_and]

theorem flattenForest_map_mk (l : List (Tree Task))
    (g : Tree Task → List (Tree Task)) :
    flattenForest (l.map (fun t => Tree.mk t.item (g t))) =
      l.flatMap (fun t => t.item :: flattenForest (g t)) := by
  induction l with
  | nil => simp [flattenForest_nil]
  | cons t rest ih =>
    simp only [List.map_cons, flattenForest, List.flatMap_cons, ih,
      List.cons_append]

theorem flatMap_congr_mem {α β : Type} (l : List α) (f g : α → List β)
    (h : ∀ x ∈ l, f x = g x) : l.flatMap f = l.flatMap g := by
  induction l with
  | nil => rfl
  | cons a rest ih =>
    simp only [List.flatMap_cons]
    rw [h a (List.mem_cons_self a rest),
      ih (fun x hx => h x (List.mem_cons_of_mem a hx))]

theorem mem_apply_sort {key : Option SortBy} {ts : List (Tree Task)}
    {t : Tree Task} (h : t ∈ apply_sort key ts) : t ∈ ts := by
  rw [apply_sort, List.mem_mergeSort] at h
  exact h

theorem list_tasks_with_sort_eq_flatten (key : Option SortBy) :
    ∀ ts, list_tasks_with_sort key ts = flattenForest (sortForestRec key ts) := by
  have main : ∀ (n : Nat) (ts : List (Tree Task)), sizeOf ts ≤ n →
      list_tasks_with_sort key ts = flattenForest (sortForestRec key ts) := by
    intro n
    induction n with
    | zero =>
      intro ts h
      cases ts with
      | nil =>
        rw [list_tasks_with_sort_eq, sortForestRec_eq]
        simp [apply_sort, flattenForest_nil]
      | cons t rest =>
        exfalso
        simp only [List.cons.sizeOf_spec] at h
        omega
    | succ n ih =>
      intro ts h
      rw [list_tasks_with_sort_eq, sortForestRec_eq, flattenForest_map_mk]
      apply flatMap_congr_mem
      intro t ht
      have ht' : t ∈ ts := mem_apply_sort ht
      have hsz : sizeOf t.subitems ≤ n := by
        have h1 := List.sizeOf_lt_of_mem ht'
        have h2 := Tree.sizeOf_subitems_lt t
        omega
      rw [ih t.subitems hsz]
  intro ts
  exact main (sizeOf ts) ts (Nat.le_refl _)

theorem subtree_block_of_flatten {α : Type} :
    ∀ (ts : List (Tree α)) (t : Tree α), t ∈ subtreesF ts →
      ∃ pre post, flattenForest ts =
        pre ++ (t.item :: flattenForest t.subitems) ++ post := by
  intro ts
  induction ts using forestInduction with
  | nil =>
    intro t ht
    simp [subtreesF] at ht
  | cons it subs rest ihs ihr =>
    intro t ht
    simp only [subtreesF, List.mem_cons, List.mem_append] at ht
    rcases ht with he | hsub | hrest
    · refine ⟨[], flattenForest rest, ?_⟩
      subst he
      simp [flattenForest, Tree.item, Tree.subitems]
    · obtain ⟨pre, post, hp⟩ := ihs t hsub
      refine ⟨it :: pre, post ++ flattenForest rest, ?_⟩
      simp [flattenForest, hp, List.append_assoc]
    · obtain ⟨pre, post, hp⟩ := ihr t hrest
      refine ⟨it :: (flattenForest subs ++ pre), post, ?_⟩
      simp [flattenForest, hp, List.append_assoc]

/-- C6: the ungrouped listing equals the preorder flattening of the forest
obtained by recursively sorting every sibling list with the same key; that
recursively sorted forest is, at top level, a permutation of the original
sibling list with recursively sorted children (so sorting permutes only
sibling groups and never moves a node across subtrees); and every node of
the sorted forest occupies a contiguous block of the printed sequence,
appearing immediately followed by its entire subtree. -/
theorem sort_preserves_hierarchy :
    (∀ (key : Option SortBy) (ts : List (Tree Task)),
      list_tasks_with_sort key ts = flattenForest (sortForestRec key ts)) ∧
    (∀ (key : Option SortBy) (ts : List (Tree Task)),
      (sortForestRec key ts).Perm
        (ts.map (fun t => Tree.mk t.item (sortForestRec key t.subitems)))) ∧
    (∀ (key : Option SortBy) (ts : List (Tree Task)) (t : Tree Task),
      t ∈ subtreesF (sortForestRec key ts) →
      ∃ pre post, list_tasks_with_sort key ts =
        pre ++ (t.item :: flattenForest t.subitems) ++ post) := by
  refine ⟨?_, ?_, ?_⟩
  · intro key ts
    exact list_tasks_with_sort_eq_flatten key ts
  · intro key ts
    rw [sortForestRec_eq]
    exact (List.mergeSort_perm ts _).map _
  · intro key ts t ht
    rw [list_tasks_with_sort_eq_flatten key ts]
    exact subtree_block_of_flatten (sortForestRec key ts) t ht

theorem sortForestRec_nil (key : Option SortBy) : sortForestRec key [] = [] := by
  rw [sortForestRec_eq]
  simp [apply_sort]

theorem sort_preserves_hierarchy_witness :
    list_tasks_with_sort none [leafT (mkTask "w")] =
      flattenForest (sortForestRec none [leafT (mkTask "w")]) ∧
    (∃ pre post, list_tasks_with_sort none [leafT (mkTask "w")] =
      pre ++ (mkTask "w" :: flattenForest ([] : List (Tree Task))) ++ post) := by
  constructor
  · exact sort_preserves_hierarchy.1 none [leafT (mkTask "w")]
  · have hone : sortForestRec none [leafT (mkTask "w")] = [leafT (mkTask "w")] := by
      rw [sortForestRec_eq]
      simp only [apply_sort, List.mergeSort_singleton, List.map_cons,
        List.map_nil]
      simp only [leafT, Tree.item, Tree.subitems, sortForestRec_nil]
    have hmem : leafT (mkTask "w") ∈
        subtreesF (sortForestRec none [leafT (mkTask "w")]) := by
      rw [hone]
      show leafT (mkTask "w") ∈ subtreesF [Tree.mk (mkTask "w") []]
      simp [subtreesF, leafT, subtreesF_nil]
    exact sort_preserves_hierarchy.2.2 none [leafT (mkTask "w")]
      (leafT (mkTask "w")) hmem

/-! ## Claims C7 and C8: grouping by project and its counts -/

theorem collect_tasks_spec :
    ∀ (ts : List (Tree Task)) (g : String → List (Tree Task)) (p : String),
      collect_tasks ts g p =
        g p ++ (subtreesF ts).filter (fun t => t.item.project_id == p) := by
  intro ts
  induction ts using forestInduction with
  | nil =>
    intro g p
    simp [collect_tasks, subtreesF_nil]
  | cons it subs rest ihs ihr =>
    intro g p
    have hstep : collect_tasks (Tree.mk it subs :: rest) g =
        collect_tasks rest
          (collect_tasks subs (pushBucket g it.project_id (Tree.mk it subs))) := by
      simp only [collect_tasks]
    rw [hstep, ihr, ihs]
    simp only [subtreesF, List.filter_cons, List.filter_append, Tree.item]
    by_cases hp : it.project_id = p
    · have hp' : p = it.project_id := hp.symm
      simp only [pushBucket, if_pos hp', hp, beq_self_eq_true, if_pos]
      simp [List.append_assoc]
    · have hp' : ¬ (p = it.project_id) := fun h => hp h.symm
      have hb : (it.project_id == p) = false := beq_eq_false_iff_ne.mpr hp
      simp only [pushBucket, if_neg hp', hb]
      simp [List.append_assoc]

/-- C7: grouping by project partitions the node set of the forest: the
bucket of a project id is exactly the preorder list of the forest's nodes
whose own project id is that key, so every node lands in exactly the bucket
of its own project id and buckets contain nothing else. -/
theorem grouping_partitions_nodes :
    (∀ (ts : List (Tree Task)) (p : String),
      collect_tasks ts emptyBuckets p =
        (subtreesF ts).filter (fun t => t.item.project_id == p)) ∧
    (∀ (ts : List (Tree Task)) (p : String) (t : Tree Task),
      t ∈ collect_tasks ts emptyBuckets p ↔
        (t ∈ subtreesF ts ∧ t.item.project_id = p)) := by
  have h1 : ∀ (ts : List (Tree Task)) (p : String),
      collect_tasks ts emptyBuckets p =
        (subtreesF ts).filter (fun t => t.item.project_id == p) := by
    intro ts p
    rw [collect_tasks_spec]
    simp [emptyBuckets]
  refine ⟨h1, ?_⟩
  intro ts p t
  rw [h1, List.mem_filter]
  simp only [beq_iff_eq]

/-- Root task in project P1. -/
def taskP1 : Task := { mkTask "r" with project_id := "P1" }

/-- Child task in project P2. -/
def taskP2a : Task := { mkTask "c" with project_id := "P2" }

/-- Grandchild task in project P2. -/
def taskP2b : Task := { mkTask "g" with project_id := "P2" }

/-- A forest with one root (project P1) carrying two nested descendants
(project P2). -/
def forestC78 : List (Tree Task) :=
  [Tree.mk taskP1 [Tree.mk taskP2a [Tree.mk taskP2b []]]]

theorem grouping_partitions_nodes_witness :
    collect_tasks forestC78 emptyBuckets "P2" =
      (subtreesF forestC78).filter (fun t => t.item.project_id == "P2") ∧
    (Tree.mk taskP2b [] ∈ collect_tasks forestC78 emptyBuckets "P2" ↔
      (Tree.mk taskP2b [] ∈ subtreesF forestC78 ∧
        (Tree.mk taskP2b []).item.project_id = "P2")) := by
  constructor
  · exact grouping_partitions_nodes.1 forestC78 "P2"
  · exact grouping_partitions_nodes.2 forestC78 "P2" (Tree.mk taskP2b [])

theorem count_all_subtasks_list_eq_length :
    ∀ ts : List (Tree Task),
      count_all_subtasks_list ts = (flattenForest ts).length := by
  intro ts
  induction ts using forestInduction with
  | nil => simp [count_all_subtasks_list, flattenForest_nil]
  | cons it subs rest ihs ihr =>
    simp only [count_all_subtasks_list, flattenForest, List.length_cons,
      List.length_append, ihs, ihr]
    omega

theorem count_all_tasks_eq_length :
    ∀ ts : List (Tree Task),
      count_all_tasks ts = (flattenForest ts).length := by
  intro ts
  induction ts with
  | nil => simp [count_all_tasks, flattenForest_nil]
  | cons t rest ih =>
    cases t with
    | mk it subs =>
      have hcat : count_all_tasks (Tree.mk it subs :: rest) =
          (1 + count_all_subtasks_list subs) + count_all_tasks rest := by
        simp [count_all_tasks, count_all_subtasks, Tree.subitems]
      rw [hcat, ih, count_all_subtasks_list_eq_length subs]
      simp only [flattenForest, List.length_cons, List.length_append]
      omega

/-- C8: a project group header shows the pair (directly bucketed entries,
recursive total summing 1 + count(subitems) over the bucket); the recursive
total equals the number of nodes contained in the bucketed subtrees; and the
bucket holding one root with two nested descendants reports (1, 3). -/
theorem group_counts_correct :
    (∀ (ts : List (Tree Task)) (p : String),
      groupHeaderCounts ts p =
        ((collect_tasks ts emptyBuckets p).length,
          count_all_tasks (collect_tasks ts emptyBuckets p))) ∧
    (∀ bucket : List (Tree Task),
      count_all_tasks bucket = (flattenForest bucket).length) ∧
    groupHeaderCounts forestC78 "P1" = (1, 3) := by
  refine ⟨?_, ?_, ?_⟩
  · intro ts p
    rfl
  · exact count_all_tasks_eq_length
  · have e1 : (taskP1.project_id == "P1") = true := rfl
    have e2 : (taskP2a.project_id == "P1") = false := rfl
    have e3 : (taskP2b.project_id == "P1") = false := rfl
    have hb : collect_tasks forestC78 emptyBuckets "P1" =
        [Tree.mk taskP1 [Tree.mk taskP2a [Tree.mk taskP2b []]]] := by
      rw [collect_tasks_spec]
      simp only [emptyBuckets, List.nil_append, forestC78]
      simp only [subtreesF, subtreesF_nil, List.append_nil, List.nil_append]
      simp only [List.filter_cons, List.filter_nil, Tree.item, e1, e2, e3]
      simp
    show ((collect_tasks forestC78 emptyBuckets "P1").length,
        count_all_tasks (collect_tasks forestC78 emptyBuckets "P1")) = (1, 3)
    rw [hb]
    simp only [List.length_cons, List.length_nil, count_all_tasks,
      List.map_cons, List.map_nil, List.sum_cons, List.sum_nil,
      count_all_subtasks, Tree.subitems, count_all_subtasks_list]
    norm_num

/-! ## Claims C1 and C2: tree assembly -/

theorem buildTree_item (rs : List Task) (fuel : Nat) (r0 : Task) :
    (buildTree rs fuel r0).item = r0 := by
  cases fuel <;> rfl

theorem filter_id_singleton :
    ∀ (rs : List Task), (rs.map Task.id).Nodup → ∀ r ∈ rs,
      rs.filter (fun x => x.id == r.id) = [r] := by
  intro rs
  induction rs with
  | nil =>
    intro _ r hr
    exact absurd hr (List.not_mem_nil r)
  | cons a tl ih =>
    intro hnd r hr
    rw [List.map_cons, List.nodup_cons] at hnd
    rcases List.mem_cons.mp hr with he | htl
    · subst he
      have hnone : tl.filter (fun x => x.id == r.id) = [] := by
        rw [List.filter_eq_nil_iff]
        intro x hx
        intro hbeq
        have hmem : x.id ∈ tl.map Task.id := List.mem_map_of_mem _ hx
        have hxe : x.id = r.id := by
          have := hbeq
          exact beq_iff_eq.mp this
        rw [hxe] at hmem
        exact hnd.1 hmem
      rw [List.filter_cons, if_pos (by simp), hnone]
    · have hrid : r.id ∈ tl.map Task.id := List.mem_map_of_mem _ htl
      have hne : (a.id == r.id) = false :=
        beq_eq_false_iff_ne.mpr (fun h => hnd.1 (by rw [h]; exact hrid))
      rw [List.filter_cons, hne]
      simp only [Bool.false_eq_true, if_false]
      exact ih hnd.2 r htl

theorem uniqMem {rs : List Task} (hnd : (rs.map Task.id).Nodup)
    {r r' : Task} (hr : r ∈ rs) (hr' : r' ∈ rs) (hid : r'.id = r.id) :
    r' = r := by
  have hmem : r' ∈ rs.filter (fun x => x.id == r.id) :=
    List.mem_filter.mpr ⟨hr', beq_iff_eq.mpr hid⟩
  rw [filter_id_singleton rs hnd r hr] at hmem
  exact List.mem_singleton.mp hmem

theorem onCycle_parent {rs : List Task} {r : Task} (h : onCycle rs r = true) :
    ∃ p pid, r.parent_id = some pid ∧ findByID rs pid = some p := by
  unfold onCycle at h
  cases hn : rs.length with
  | zero =>
    rw [hn] at h
    simp [walkHits] at h
  | succ n =>
    rw [hn] at h
    rw [walkHits] at h
    cases hp : parentOf rs r with
    | none =>
      rw [hp] at h
      simp at h
    | some p =>
      unfold parentOf at hp
      cases hpid : r.parent_id with
      | none =>
        rw [hpid] at hp
        simp at hp
      | some pid =>
        rw [hpid, Option.some_bind] at hp
        exact ⟨p, pid, rfl, hp⟩

theorem effParent_none_of_onCycle {rs : List Task} {r : Task}
    (h : onCycle rs r = true) : effParent rs r = none := by
  obtain ⟨p, pid, hpid, hfind⟩ := onCycle_parent h
  unfold effParent
  simp [hpid, hfind, h]

theorem flattenForest_cons_split {α : Type} (t : Tree α) (ts : List (Tree α)) :
    flattenForest (t :: ts) = flattenForest [t] ++ flattenForest ts := by
  cases t with
  | mk it subs =>
    simp [flattenForest, flattenForest_nil]

theorem countP_buildTree (rs : List Task) (x : String)
    (hall : ∀ r' ∈ rs, r'.id = x → effParent rs r' = none) :
    ∀ (fuel : Nat) (r0 : Task),
      (flattenForest [buildTree rs fuel r0]).countP (fun a => a.id == x) =
        if r0.id = x then 1 else 0 := by
  intro fuel
  induction fuel with
  | zero =>
    intro r0
    show (flattenForest [Tree.mk r0 []]).countP (fun a => a.id == x) = _
    rw [show flattenForest [Tree.mk r0 []] = [r0] by
      simp [flattenForest, flattenForest_nil]]
    by_cases hx : r0.id = x
    · simp [List.countP_cons, hx]
    · simp [List.countP_cons, hx]
  | succ fuel ih =>
    intro r0
    have hzero : ∀ l : List Task, (∀ c ∈ l, c.id ≠ x) →
        (flattenForest (l.map (buildTree rs fuel))).countP
          (fun a => a.id == x) = 0 := by
      intro l
      induction l with
      | nil => intro _; simp [flattenForest_nil]
      | cons c tl ihl =>
        intro hc
        rw [List.map_cons, flattenForest_cons_split, List.countP_append]
        rw [ih c, ihl (fun d hd => hc d (List.mem_cons_of_mem c hd))]
        simp [hc c (List.mem_cons_self c tl)]
    have hchild : ∀ c ∈ childrenRecs rs r0.id, c.id ≠ x := by
      intro c hc hx
      have hcm := List.mem_filter.mp hc
      have heff := hall c hcm.1 hx
      rw [heff] at hcm
      simp at hcm
    show (flattenForest [Tree.mk r0 ((childrenRecs rs r0.id).map (buildTree rs fuel))]).countP
      (fun a => a.id == x) = _
    rw [show ∀ (children : List (Tree Task)), flattenForest [Tree.mk r0 children] =
        r0 :: flattenForest children from fun children => by
      simp [flattenForest, flattenForest_nil]]
    rw [List.countP_cons, hzero (childrenRecs rs r0.id) hchild]
    by_cases hx : r0.id = x
    · simp [hx]
    · simp [hx]

theorem countP_flatten_map_roots (rs : List Task) (x : String)
    (hall : ∀ r' ∈ rs, r'.id = x → effParent rs r' = none) :
    ∀ l : List Task,
      (flattenForest (l.map (fun r =>
        buildTree rs rs.length { r with parent_id := none }))).countP
          (fun a => a.id == x) =
        l.countP (fun r => r.id == x) := by
  intro l
  induction l with
  | nil => simp [flattenForest_nil]
  | cons r tl ih =>
    rw [List.map_cons, flattenForest_cons_split, List.countP_append, ih,
      countP_buildTree rs x hall rs.length { r with parent_id := none },
      List.countP_cons]
    by_cases hx : r.id = x
    · simp [hx, Nat.add_comm]
    · simp [hx]

theorem countP_filter_swap (p q : Task → Bool) :
    ∀ rs : List Task, (rs.filter q).countP p = (rs.filter p).countP q := by
  intro rs
  induction rs with
  | nil => rfl
  | cons a tl ih =>
    by_cases hq : q a <;> by_cases hp : p a <;>
      simp [List.filter_cons, hq, hp, List.countP_cons, ih]

/-- C1: on an input with unique ids, every record whose parent chain walks
back to itself is assembled without error into the forest as a root with its
parent link severed, and a record with its id appears in the whole forest
exactly once — neither dropped nor duplicated. -/
theorem cycle_records_become_roots (rs : List Task) (r : Task)
    (h1 : (rs.map Task.id).Nodup) (h2 : r ∈ rs) (h3 : onCycle rs r = true) :
    assemble rs = .ok (assembledForest rs) ∧
    (flattenForest (assembledForest rs)).countP (fun a => a.id == r.id) = 1 ∧
    ∃ t ∈ assembledForest rs, t.item.id = r.id ∧ t.item.parent_id = none := by
  have hre : effParent rs r = none := effParent_none_of_onCycle h3
  have hall : ∀ r' ∈ rs, r'.id = r.id → effParent rs r' = none := by
    intro r' hr' hid
    rw [uniqMem h1 h2 hr' hid]
    exact hre
  refine ⟨?_, ?_, ?_⟩
  · unfold assemble
    rw [if_pos h1]
  · unfold assembledForest
    rw [countP_flatten_map_roots rs r.id hall,
      countP_filter_swap (fun a => a.id == r.id)
        (fun a => (effParent rs a).isNone),
      filter_id_singleton rs h1 r h2]
    simp [List.countP_cons, hre]
  · have hrf : r ∈ rs.filter (fun a => (effParent rs a).isNone) :=
      List.mem_filter.mpr ⟨h2, by rw [hre]; rfl⟩
    refine ⟨buildTree rs rs.length { r with parent_id := none }, ?_, ?_, ?_⟩
    · unfold assembledForest
      exact List.mem_map_of_mem _ hrf
    · rw [buildTree_item]
    · rw [buildTree_item]

/-- Record a of the 3-cycle a to b to c to a. -/
def taskCycA : Task := { mkTask "a" with parent_id := some "b" }

/-- Record b of the 3-cycle. -/
def taskCycB : Task := { mkTask "b" with parent_id := some "c" }

/-- Record c of the 3-cycle. -/
def taskCycC : Task := { mkTask "c" with parent_id := some "a" }

/-- The 3-cycle input collection. -/
def cycleInput : List Task := [taskCycA, taskCycB, taskCycC]

theorem cycle_records_become_roots_witness :
    (cycleInput.map Task.id).Nodup ∧ onCycle cycleInput taskCycA = true ∧
    (assemble cycleInput = .ok (assembledForest cycleInput) ∧
      (flattenForest (assembledForest cycleInput)).countP
        (fun a => a.id == taskCycA.id) = 1 ∧
      ∃ t ∈ assembledForest cycleInput,
        t.item.id = taskCycA.id ∧ t.item.parent_id = none) := by
  refine ⟨by decide, by decide, ?_⟩
  exact cycle_records_become_roots cycleInput taskCycA (by decide)
    (List.mem_cons_self _ _) (by decide)

/-- C2: assembly returns an error exactly when two records share an id, the
only error is DuplicateID, and filtering, sorting and grouping are plain
total functions for which the empty forest is an ordinary value. -/
theorem assembly_error_iff_duplicate :
    (∀ rs : List Task,
      (∃ e, assemble rs = .error e) ↔ ¬ (rs.map Task.id).Nodup) ∧
    (∀ (rs : List Task) (e : AssemblyError),
      assemble rs = .error e → e = .DuplicateID) ∧
    (∀ rs : List Task, ¬ (rs.map Task.id).Nodup →
      assemble rs = .error .DuplicateID) ∧
    (∀ (pred : Task → Bool) (expand : Bool),
      filterForest pred expand [] = []) ∧
    (∀ key : Option SortBy, list_tasks_with_sort key [] = []) ∧
    (∀ p : String, collect_tasks [] emptyBuckets p = []) := by
  refine ⟨?_, ?_, ?_, ?_, ?_, ?_⟩
  · intro rs
    constructor
    · rintro ⟨e, he⟩ hnd
      unfold assemble at he
      rw [if_pos hnd] at he
      cases he
    · intro hnd
      refine ⟨.DuplicateID, ?_⟩
      unfold assemble
      rw [if_neg hnd]
  · intro rs e he
    unfold assemble at he
    split at he
    · cases he
    · exact (Except.error.inj he).symm
  · intro rs h
    unfold assemble
    rw [if_neg h]
  · intro pred expand
    simp [filterForest]
  · intro key
    rw [list_tasks_with_sort_eq]
    simp [apply_sort]
  · intro p
    simp [collect_tasks, emptyBuckets]

/-- Two records sharing the id x. -/
def dupInput : List Task := [mkTask "x", mkTask "x"]

theorem assembly_error_iff_duplicate_witness :
    (∃ e, assemble dupInput = .error e) ∧
    assemble dupInput = .error .DuplicateID := by
  constructor
  · exact (assembly_error_iff_duplicate.1 dupInput).mpr (by decide)
  · exact assembly_error_iff_duplicate.2.2.1 dupInput (by decide)

end Doist
